import Mathlib

/-!
Verification of the `embedding_ray.py` PDF-ingestion pipeline.

The script pipes a directory of PDF byte blobs through four stages:
`convert_to_text` (pypdf page extraction with per-file and per-page
exception handling), `split_text` (recursive character splitting with
`chunk_size=1000`, `chunk_overlap=100`, followed by newline
normalisation), a batched embedding stage (`Embed.__call__` zipping a
text batch with its encoded vectors, dispatched through
`ds.map_batches` with `batch_size=100`), and a final materialisation
into a FAISS index that is saved only after the whole stream drains.

Strings are modelled as `List Char`.  The external pypdf library is
modelled by the outcome of parsing (either a stream error on opening,
or a list of pages each of which either yields text or raises a
decode error), which are exactly the failure modes the surrounding
code and spec distinguish.  The external embedding model is modelled
as an abstract per-text encoding function.  The langchain splitter is
not part of this repository; it is modelled from the spec (see
`splitRec`).  Exceptions are modelled with `Except`.
-/

/-- Outcome of `page.extract_text()` for one page of an opened
document: either the page's text, or a `binascii.Error` raised while
decoding malformed characters. -/
inductive PageResult where
  | text (s : List Char)
  | decodeError
deriving DecidableEq

/-- Outcome of handing a byte blob to `PdfReader`: a
`pypdf.errors.PdfStreamError` for a structurally unreadable container,
or the document's list of pages. -/
inductive ReadResult where
  | streamError
  | pages (ps : List PageResult)
deriving DecidableEq

/-- The Python exceptions distinguished by the script: the stream
error raised by `PdfReader` on an unreadable container, and the
`binascii.Error` raised during page text extraction. -/
inductive PyExn where
  | pdfStreamError
  | binasciiError
deriving DecidableEq

/-- Models `PdfReader(pdf_bytes_io)`: raises `PdfStreamError` on a
structurally unreadable container, otherwise yields the pages. -/
def PdfReader : ReadResult → Except PyExn (List PageResult)
  | .streamError => .error .pdfStreamError
  | .pages ps => .ok ps

/-- Models `page.extract_text()`: yields the page's text or raises
`binascii.Error`. -/
def extract_text : PageResult → Except PyExn (List Char)
  | .text s => .ok s
  | .decodeError => .error .binasciiError

/-- Models the page loop of `convert_to_text` (lines 31-38): append
each page's extracted text; a `binascii.Error` is caught and the page
skipped; any other exception would propagate. -/
def extractLoop : List PageResult → Except PyExn (List (List Char))
  | [] => .ok []
  | p :: ps =>
    match extract_text p with
    | .ok t => (extractLoop ps).map (fun rest => t :: rest)
    | .error .binasciiError => extractLoop ps
    | .error e => .error e

/-- Models `convert_to_text` (lines 22-38): open the byte stream with
`PdfReader`, returning `[]` if that raises `PdfStreamError`, then run
the page loop. -/
def convert_to_text (input : ReadResult) : Except PyExn (List (List Char)) :=
  match PdfReader input with
  | .error .pdfStreamError => .ok []
  | .error e => .error e
  | .ok ps => extractLoop ps

/-- The text carried by a successfully extracted page. -/
def pageText : PageResult → Option (List Char)
  | .text s => some s
  | .decodeError => none

/-- The pure value `convert_to_text` computes: no pages for an
unreadable container, otherwise the texts of the pages whose
extraction succeeded, in document order. -/
def convertPages : ReadResult → List (List Char)
  | .streamError => []
  | .pages ps => ps.filterMap pageText

theorem extractLoop_eq (ps : List PageResult) :
    extractLoop ps = Except.ok (ps.filterMap pageText) := by
  induction ps with
  | nil => rfl
  | cons p ps ih =>
    cases p with
    | text s => simp [extractLoop, extract_text, pageText, ih, Except.map]
    | decodeError => simp [extractLoop, extract_text, pageText, ih]

theorem convert_to_text_eq_ok (r : ReadResult) :
    convert_to_text r = Except.ok (convertPages r) := by
  cases r with
  | streamError => rfl
  | pages ps => simpa [convert_to_text, PdfReader, convertPages] using extractLoop_eq ps

/-- Replacement performed by `text.replace("\n", " ")` on each
character of a chunk. -/
def replaceNewline (c : Char) : Char := if c = '\n' then ' ' else c

/-- Modelled from the spec: the recursive character splitter used by
`split_text` lives in the external langchain library, not in this
repository.  Section 4.2 of the spec describes it: chunks of length at
most `chunk_size = 1000`, consecutive chunks overlapping by exactly
`chunk_overlap = 100` characters where the text permits, at least one
chunk for non-empty input.  This is realised by the hard character
cut the spec falls back to: a window of 1000 characters advanced by
900 characters at a time. -/
def splitRec (s : List Char) : List (List Char) :=
  if s.length ≤ 1000 then [s]
  else s.take 1000 :: splitRec (s.drop 900)
termination_by s.length
decreasing_by
  simp only [List.length_drop]
  omega

/-- Modelled from the spec: `RecursiveCharacterTextSplitter.split_text`
yields zero chunks for the empty string and otherwise splits with
`splitRec`. -/
def recursiveSplit (s : List Char) : List (List Char) :=
  if s.isEmpty then [] else splitRec s

/-- Models `split_text` (lines 47-54): split the page text, then
replace every newline in each chunk with a single space. -/
def split_text (page_text : List Char) : List (List Char) :=
  (recursiveSplit page_text).map (List.map replaceNewline)

theorem splitRec_of_le {s : List Char} (h : s.length ≤ 1000) :
    splitRec s = [s] := by
  rw [splitRec]
  simp [h]

theorem splitRec_of_gt {s : List Char} (h : ¬ s.length ≤ 1000) :
    splitRec s = s.take 1000 :: splitRec (s.drop 900) := by
  rw [splitRec]
  simp [h]

theorem splitRec_ne_nil (s : List Char) : splitRec s ≠ [] := by
  by_cases h : s.length ≤ 1000
  · rw [splitRec_of_le h]
    simp
  · rw [splitRec_of_gt h]
    simp

/-- Claim C2: for every byte input, `convert_to_text` never raises an
exception past its boundary — it returns a list in all cases — and a
structurally unreadable container yields the empty list. -/
theorem extraction_never_raises :
    (∀ r : ReadResult, ∃ out, convert_to_text r = Except.ok out) ∧
    convert_to_text ReadResult.streamError = Except.ok [] := by
  refine ⟨fun r => ⟨convertPages r, convert_to_text_eq_ok r⟩, rfl⟩

/-- Claim C6: a page whose extraction raises a decode error
contributes no output entry, extraction continues with the remaining
pages of the document, and in general the surviving pages are emitted
in document order (`filterMap` keeps the order of `ps`). -/
theorem decode_failure_page_skipped :
    (∀ ps : List PageResult,
      convert_to_text (ReadResult.pages ps) = Except.ok (ps.filterMap pageText)) ∧
    (∀ xs ys : List PageResult,
      convert_to_text (ReadResult.pages (xs ++ PageResult.decodeError :: ys)) =
        Except.ok (xs.filterMap pageText ++ ys.filterMap pageText)) := by
  have hgen : ∀ ps : List PageResult,
      convert_to_text (ReadResult.pages ps) = Except.ok (ps.filterMap pageText) := by
    intro ps
    simpa [convert_to_text, PdfReader] using extractLoop_eq ps
  refine ⟨hgen, fun xs ys => ?_⟩
  rw [hgen]
  simp [List.filterMap_append, pageText]

/-- Claim C10: a readable page whose extracted text is empty still
produces one (empty) entry in the extractor output, and the splitter
then turns that empty entry into zero chunks. -/
theorem blank_page_kept_by_extractor :
    (∀ xs ys : List PageResult,
      convert_to_text (ReadResult.pages (xs ++ PageResult.text [] :: ys)) =
        Except.ok (xs.filterMap pageText ++ [] :: ys.filterMap pageText)) ∧
    split_text [] = [] := by
  constructor
  · intro xs ys
    have hgen := convert_to_text_eq_ok (ReadResult.pages (xs ++ PageResult.text [] :: ys))
    rw [hgen]
    simp [convertPages, List.filterMap_append, pageText]
  · rfl

/-- Claim C8: `split_text` is total (it is a Lean function) and its
output is empty exactly when its input is: non-empty input yields at
least one chunk, the empty string yields zero chunks. -/
theorem split_text_empty_iff (s : List Char) :
    split_text s = [] ↔ s = [] := by
  constructor
  · intro h
    by_contra hne
    have hemp : s.isEmpty = false := by
      simpa [List.isEmpty_iff] using hne
    rw [split_text, recursiveSplit, hemp] at h
    simp only [Bool.false_eq_true, if_false] at h
    exact splitRec_ne_nil s (by simpa using h)
  · rintro rfl
    rfl

/-- Claim C7: every chunk returned by `split_text` contains no newline
character, and each chunk is a raw split chunk with every newline
replaced by a single space. -/
theorem chunks_have_no_newline (s c : List Char) (hc : c ∈ split_text s) :
    '\n' ∉ c ∧ ∃ raw ∈ recursiveSplit s, c = raw.map replaceNewline := by
  rw [split_text] at hc
  rcases List.mem_map.mp hc with ⟨raw, hraw, hmap⟩
  refine ⟨?_, raw, hraw, hmap.symm⟩
  rw [← hmap]
  intro hmem
  rcases List.mem_map.mp hmem with ⟨x, _, hx⟩
  by_cases hxe : x = '\n'
  · rw [replaceNewline, if_pos hxe] at hx
    exact absurd hx (by decide)
  · rw [replaceNewline, if_neg hxe] at hx
    exact hxe hx

/-- Witness for C7 at the concrete input `"\n"`: the single chunk is
`" "`, which contains no newline. -/
theorem chunks_have_no_newline_witness :
    '\n' ∉ ([' '] : List Char) ∧
    ∃ raw ∈ recursiveSplit ['\n'], ([' '] : List Char) = raw.map replaceNewline :=
  chunks_have_no_newline ['\n'] [' ']
    (by simp [split_text, recursiveSplit, splitRec_of_le, replaceNewline])

/-- Overlap contract between consecutive chunks: the next chunk has at
least 100 characters and its first 100 characters are exactly the last
100 characters of the previous chunk. -/
def overlapRel (a b : List Char) : Prop :=
  100 ≤ b.length ∧ a.drop (a.length - 100) = b.take 100

theorem splitRec_head (s : List Char) : (splitRec s).head? = some (s.take 1000) := by
  by_cases h : s.length ≤ 1000
  · rw [splitRec_of_le h]
    simp [List.take_of_length_le h]
  · rw [splitRec_of_gt h]
    rfl

theorem splitRec_length_le (s : List Char) : ∀ c ∈ splitRec s, c.length ≤ 1000 := by
  induction s using splitRec.induct with
  | case1 s h =>
    intro c hc
    rw [splitRec_of_le h] at hc
    simp only [List.mem_singleton] at hc
    exact hc ▸ h
  | case2 s h ih =>
    intro c hc
    rw [splitRec_of_gt h] at hc
    rcases List.mem_cons.mp hc with rfl | hc2
    · simp [List.length_take]
    · exact ih c hc2

theorem splitRec_chain (s : List Char) : List.Chain' overlapRel (splitRec s) := by
  induction s using splitRec.induct with
  | case1 s h =>
    rw [splitRec_of_le h]
    simp
  | case2 s h ih =>
    rw [splitRec_of_gt h]
    refine List.chain'_cons'.mpr ⟨?_, ih⟩
    intro y hy
    rw [splitRec_head] at hy
    have hy2 : y = (s.drop 900).take 1000 := by simpa using hy.symm
    subst hy2
    constructor
    · simp only [List.length_take, List.length_drop]
      omega
    · have hlen : (s.take 1000).length = 1000 := by
        simp only [List.length_take]
        omega
      rw [hlen]
      norm_num
      rw [List.drop_take, List.take_take]
      norm_num

theorem overlapRel_map {a b : List Char} (h : overlapRel a b) :
    overlapRel (a.map replaceNewline) (b.map replaceNewline) := by
  obtain ⟨h1, h2⟩ := h
  constructor
  · simpa using h1
  · rw [List.length_map, ← List.map_drop, ← List.map_take, h2]

/-- Claim C3: every chunk returned by `split_text` (chunk size 1000,
overlap 100) has length at most 1000, and each pair of consecutive
chunks shares exactly 100 characters of context: the last 100
characters of a chunk are the first 100 characters of the next. -/
theorem split_chunks_bounded_and_overlap (s : List Char) :
    (∀ c ∈ split_text s, c.length ≤ 1000) ∧
    List.Chain' overlapRel (split_text s) := by
  constructor
  · intro c hc
    rw [split_text] at hc
    rcases List.mem_map.mp hc with ⟨raw, hraw, rfl⟩
    rw [List.length_map]
    rw [recursiveSplit] at hraw
    by_cases hemp : s.isEmpty
    · rw [if_pos hemp] at hraw
      cases hraw
    · rw [if_neg hemp] at hraw
      exact splitRec_length_le s raw hraw
  · rw [split_text, List.chain'_map, recursiveSplit]
    by_cases hemp : s.isEmpty
    · rw [if_pos hemp]
      simp
    · rw [if_neg hemp]
      exact (splitRec_chain s).imp (fun a b h => overlapRel_map h)

theorem replaceNewline_a : replaceNewline 'a' = 'a' := by decide

theorem split_text_rep1100 :
    split_text (List.replicate 1100 'a') = [List.replicate 1000 'a', List.replicate 200 'a'] := by
  have hne : (List.replicate 1100 'a' : List Char) ≠ [] := by
    intro h
    have hlen := congrArg List.length h
    simp only [List.length_replicate, List.length_nil] at hlen
    exact absurd hlen (by norm_num)
  have h1 : ¬ (List.replicate 1100 'a' : List Char).length ≤ 1000 := by
    simp only [List.length_replicate]
    norm_num
  rw [split_text, recursiveSplit, if_neg (by simp only [List.isEmpty_iff]; exact hne),
    splitRec_of_gt h1, List.drop_replicate, List.take_replicate]
  norm_num
  rw [splitRec_of_le (by simp only [List.length_replicate]; norm_num)]
  simp only [List.map_cons, List.map_nil, List.map_replicate, replaceNewline_a]
  exact ⟨trivial, trivial⟩

/-- Witness for C3 at the concrete input of 1100 repeated characters:
the first chunk has length at most 1000, and the chunk list satisfies
the overlap chain. -/
theorem split_chunks_bounded_and_overlap_witness :
    (List.replicate 1000 'a').length ≤ 1000 ∧
    List.Chain' overlapRel (split_text (List.replicate 1100 'a')) :=
  ⟨(split_chunks_bounded_and_overlap (List.replicate 1100 'a')).1 (List.replicate 1000 'a')
      (by rw [split_text_rep1100]; exact List.mem_cons_self _ _),
    (split_chunks_bounded_and_overlap (List.replicate 1100 'a')).2⟩

/-- Models `Embed.__call__` (lines 69-76): encode the batch with the
loaded model (the external model is an abstract per-text encoding, one
vector per input text, as its contract in the spec states) and return
`list(zip(text_batch, embeddings))`. -/
def EmbedCall {V : Type} (encodeOne : List Char → V) (text_batch : List (List Char)) :
    List (List Char × V) :=
  text_batch.zip (text_batch.map encodeOne)

/-- Models the batching performed by `ds.map_batches(..., batch_size=n)`:
consecutive groups of `n` records, the final group possibly smaller. -/
def batched {α : Type} (n : Nat) (xs : List α) : List (List α) :=
  if h1 : xs.isEmpty then []
  else if h2 : n = 0 then [xs]
  else xs.take n :: batched n (xs.drop n)
termination_by xs.length
decreasing_by
  simp only [List.length_drop]
  have hne : xs ≠ [] := by simpa [List.isEmpty_iff] using h1
  have hpos : 0 < xs.length := List.length_pos.mpr hne
  omega

/-- Models `ds.map_batches(f, batch_size=n)`: apply `f` to each batch
and concatenate the per-batch outputs into the result stream. -/
def map_batches {α β : Type} (f : List α → List β) (n : Nat) (xs : List α) : List β :=
  (batched n xs).flatMap f

theorem batched_of_ne_nil {α : Type} {n : Nat} {xs : List α} (hx : xs ≠ []) (hn : n ≠ 0) :
    batched n xs = xs.take n :: batched n (xs.drop n) := by
  rw [batched]
  simp [List.isEmpty_iff, hx, hn]

theorem batched_flatten {α : Type} (n : Nat) (hn : n ≠ 0) (xs : List α) :
    (batched n xs).flatten = xs := by
  induction xs using batched.induct n with
  | case1 xs h1 =>
    rw [batched, dif_pos h1]
    simpa [List.isEmpty_iff] using h1.symm
  | case2 xs h1 h2 => exact absurd h2 hn
  | case3 xs h1 h2 ih =>
    rw [batched_of_ne_nil (by simpa [List.isEmpty_iff] using h1) hn]
    simpa [List.flatten_cons, ih] using List.take_append_drop n xs

theorem flatMap_self_eq_flatten {α : Type} (L : List (List α)) :
    (L.flatMap fun b => b) = L.flatten := by
  induction L with
  | nil => rfl
  | cons x xs ih => simp [ih]

theorem EmbedCall_fst {V : Type} (enc : List Char → V) (batch : List (List Char)) :
    (EmbedCall enc batch).map Prod.fst = batch := by
  rw [EmbedCall]
  exact List.map_fst_zip _ _ (by simp)

theorem map_batches_fst {V : Type} (enc : List Char → V) (chunks : List (List Char)) :
    (map_batches (EmbedCall enc) 100 chunks).map Prod.fst = chunks := by
  rw [map_batches, List.map_flatMap]
  simp only [EmbedCall_fst]
  rw [flatMap_self_eq_flatten]
  exact batched_flatten 100 (by norm_num) chunks

/-- Claim C1: each batch entering the embedding stage produces exactly
one (text, vector) pair per chunk, and across the whole `map_batches`
dispatch every input chunk appears exactly once (in order) as the
first component of the output stream — no drops, no duplicates. -/
theorem embedding_stage_cardinality (V : Type) (enc : List Char → V) :
    (∀ batch : List (List Char),
      (EmbedCall enc batch).map Prod.fst = batch ∧
      (EmbedCall enc batch).length = batch.length) ∧
    (∀ chunks : List (List Char),
      (map_batches (EmbedCall enc) 100 chunks).map Prod.fst = chunks ∧
      (map_batches (EmbedCall enc) 100 chunks).length = chunks.length) := by
  constructor
  · intro batch
    refine ⟨EmbedCall_fst enc batch, ?_⟩
    conv_rhs => rw [← EmbedCall_fst enc batch]
    rw [List.length_map]
  · intro chunks
    refine ⟨map_batches_fst enc chunks, ?_⟩
    conv_rhs => rw [← map_batches_fst enc chunks]
    rw [List.length_map]

theorem zip_self_map {V : Type} (enc : List Char → V) (l : List (List Char)) :
    l.zip (l.map enc) = l.map (fun t => (t, enc t)) := by
  induction l with
  | nil => rfl
  | cons x xs ih => simp [ih]

/-- Claim C9: `Embed.__call__` preserves order and pairing inside a
batch: the i-th output pair is the i-th input text together with the
vector encoded from that same text. -/
theorem embed_call_pairing (V : Type) (enc : List Char → V)
    (batch : List (List Char)) (i : Nat) :
    (EmbedCall enc batch)[i]? = batch[i]?.map (fun t => (t, enc t)) := by
  rw [EmbedCall, zip_self_map, List.getElem?_map]

/-- Sequential effectful map over `Except`: the first raised error
aborts the rest.  Used to model both per-text encoding inside a batch
and per-batch dispatch of the stream. -/
def mapME {α β E : Type} (f : α → Except E β) : List α → Except E (List β)
  | [] => .ok []
  | x :: xs =>
    match f x with
    | .error e => .error e
    | .ok b => (mapME f xs).map (fun bs => b :: bs)

/-- Models `Embed.__call__` when encoding can fail: encode each text
of the batch, propagating a failure, and otherwise zip the batch with
its vectors. -/
def EmbedCallE {V E : Type} (enc : List Char → Except E V) (batch : List (List Char)) :
    Except E (List (List Char × V)) :=
  (mapME enc batch).map (fun embeddings => batch.zip embeddings)

/-- Models `ds.map_batches` followed by the materialising `iter_rows`
loop when the per-batch work can fail: a failing batch aborts the
whole run instead of contributing rows. -/
def map_batchesE {β E : Type} (f : List (List Char) → Except E (List β)) (n : Nat)
    (xs : List (List Char)) : Except E (List β) :=
  (mapME f (batched n xs)).map List.flatten

/-- Models `ds.flat_map`: zero or more output records per input,
concatenated into the downstream stream. -/
def flat_map {α β : Type} (f : α → List β) (ds : List α) : List β := ds.flatMap f

/-- The chunk stream the embedding stage consumes: extraction
flat-mapped over the documents, then splitting flat-mapped over the
page texts (lines 43 and 59). -/
def pipelineChunks (docs : List ReadResult) : List (List Char) :=
  flat_map split_text (flat_map convertPages docs)

/-- The persisted FAISS index, modelled by the (text, vector) rows it
is built from (lines 89-100); it exists only if the whole run
succeeded. -/
structure SavedIndex (V : Type) where
  entries : List (List Char × V)

/-- Models the whole script run: build the chunk stream, embed it in
batches of 100, and save the index built from the materialised rows.
An embedding error propagates and no `SavedIndex` is produced. -/
def runPipeline {V E : Type} (docs : List ReadResult) (enc : List Char → Except E V) :
    Except E (SavedIndex V) :=
  (map_batchesE (EmbedCallE enc) 100 (pipelineChunks docs)).map SavedIndex.mk

theorem mapME_error {α β E : Type} (f : α → Except E β) (l : List α) (x : α) (e : E)
    (hx : x ∈ l) (hfx : f x = Except.error e) :
    ∃ e2, mapME f l = Except.error e2 := by
  induction l with
  | nil => cases hx
  | cons y ys ih =>
    cases hfy : f y with
    | error e0 => exact ⟨e0, by simp [mapME, hfy]⟩
    | ok b =>
      rcases List.mem_cons.mp hx with rfl | h
      · rw [hfy] at hfx
        cases hfx
      · rcases ih h with ⟨e2, he2⟩
        exact ⟨e2, by simp [mapME, hfy, he2, Except.map]⟩

/-- Claim C5: if encoding any chunk of the stream fails, the failure
is fatal: the run produces an error rather than skipping the chunk,
and no index is produced (`runPipeline` yields no `SavedIndex`). -/
theorem embedding_failure_is_fatal {V E : Type} (docs : List ReadResult)
    (enc : List Char → Except E V) (c : List Char) (e : E)
    (hc : c ∈ pipelineChunks docs) (he : enc c = Except.error e) :
    ∃ e2, runPipeline docs enc = Except.error e2 := by
  have hflat : c ∈ (batched 100 (pipelineChunks docs)).flatten := by
    rw [batched_flatten 100 (by norm_num)]
    exact hc
  rcases List.mem_flatten.mp hflat with ⟨b, hb, hcb⟩
  rcases mapME_error enc b c e hcb he with ⟨e2, he2⟩
  have hbe : EmbedCallE enc b = Except.error e2 := by
    simp [EmbedCallE, he2, Except.map]
  rcases mapME_error (EmbedCallE enc) (batched 100 (pipelineChunks docs)) b e2 hb hbe with
    ⟨e3, he3⟩
  refine ⟨e3, ?_⟩
  simp [runPipeline, map_batchesE, he3, Except.map]

/-- Witness for C5: one readable one-page document whose chunk the
encoder rejects; the run errors out. -/
theorem embedding_failure_is_fatal_witness :
    ∃ e2, runPipeline (V := Unit) [ReadResult.pages [PageResult.text (List.replicate 3 'a')]]
      (fun _ => Except.error 0) = Except.error e2 :=
  embedding_failure_is_fatal _ _ (List.replicate 3 'a') 0
    (by simp [pipelineChunks, flat_map, convertPages, pageText, split_text, recursiveSplit,
          splitRec_of_le, replaceNewline])
    rfl

theorem recursiveSplit_of_ne_nil {s : List Char} (h : s ≠ []) :
    recursiveSplit s = splitRec s := by
  rw [recursiveSplit, if_neg (by simp only [List.isEmpty_iff]; exact h)]

theorem split_text_nil : split_text [] = [] := rfl

theorem replaceNewline_b : replaceNewline 'b' = 'b' := by decide

theorem split_text_replicate_short {ch : Char} (hch : replaceNewline ch = ch)
    {n : Nat} (h0 : n ≠ 0) (hn : n ≤ 1000) :
    split_text (List.replicate n ch) = [List.replicate n ch] := by
  have hne : (List.replicate n ch : List Char) ≠ [] := by
    intro h
    have hl := congrArg List.length h
    simp only [List.length_replicate, List.length_nil] at hl
    exact h0 hl
  rw [split_text, recursiveSplit_of_ne_nil hne,
    splitRec_of_le (by simp only [List.length_replicate]; exact hn)]
  simp only [List.map_cons, List.map_nil, List.map_replicate, hch]

/-- First page of the Scenario A counterexample: 1000 characters. -/
def pageA : List Char := List.replicate 1000 'a'

/-- Second page of the Scenario A counterexample: 500 characters. -/
def pageB : List Char := List.replicate 500 'b'

/-- A well-formed two-page document whose combined extracted text is
1500 characters with no natural break points, distributed 1000/500
across the two pages. -/
def scenarioDoc : ReadResult := ReadResult.pages [PageResult.text pageA, PageResult.text pageB]

theorem split_text_pageA : split_text pageA = [pageA] := by
  rw [show pageA = List.replicate 1000 'a' from rfl]
  exact split_text_replicate_short replaceNewline_a (by norm_num) (by norm_num)

theorem split_text_pageB : split_text pageB = [pageB] := by
  rw [show pageB = List.replicate 500 'b' from rfl]
  exact split_text_replicate_short replaceNewline_b (by norm_num) (by norm_num)

theorem pipelineChunks_scenarioDoc : pipelineChunks [scenarioDoc] = [pageA, pageB] := by
  rw [pipelineChunks]
  rw [show flat_map convertPages [scenarioDoc] = [pageA, pageB] from by
    simp [flat_map, scenarioDoc, convertPages, pageText]]
  rw [show flat_map split_text [pageA, pageB] = split_text pageA ++ split_text pageB from by
    simp [flat_map]]
  rw [split_text_pageA, split_text_pageB]
  rfl

/-- Counterexample to claim C4 as stated: a well-formed 2-page PDF
whose combined extracted text has 1500 characters and no break points,
split 1000/500 across the pages.  The pipeline splits per page, so it
produces the two page texts as chunks — not the first 1000 characters
and characters 900-1500 of the combined text. -/
theorem scenario_a_as_stated_counterexample :
    (pageA ++ pageB).length = 1500 ∧
    '\n' ∉ pageA ++ pageB ∧
    ' ' ∉ pageA ++ pageB ∧
    pipelineChunks [scenarioDoc] = [pageA, pageB] ∧
    pipelineChunks [scenarioDoc] ≠
      [(pageA ++ pageB).take 1000, (pageA ++ pageB).drop 900] := by
  refine ⟨?_, ?_, ?_, pipelineChunks_scenarioDoc, ?_⟩
  · simp only [pageA, pageB, List.length_append, List.length_replicate]
  · intro hmem
    rcases List.mem_append.mp hmem with h | h
    · simp only [pageA, List.mem_replicate] at h
      exact absurd h.2 (by decide)
    · simp only [pageB, List.mem_replicate] at h
      exact absurd h.2 (by decide)
  · intro hmem
    rcases List.mem_append.mp hmem with h | h
    · simp only [pageA, List.mem_replicate] at h
      exact absurd h.2 (by decide)
    · simp only [pageB, List.mem_replicate] at h
      exact absurd h.2 (by decide)
  · intro h
    rw [pipelineChunks_scenarioDoc] at h
    injection h with h1 hrest
    injection hrest with h2 hnil
    have hlen := congrArg List.length h2
    simp only [pageA, pageB, List.length_drop, List.length_append,
      List.length_replicate] at hlen
    norm_num at hlen

theorem map_replaceNewline_id {c : List Char} (h : ∀ x ∈ c, x ≠ '\n') :
    c.map replaceNewline = c := by
  induction c with
  | nil => rfl
  | cons x xs ih =>
    have hx : ¬ x = '\n' := h x (List.mem_cons_self x xs)
    rw [List.map_cons, replaceNewline, if_neg hx,
      ih (fun y hy => h y (List.mem_cons_of_mem x hy))]

/-- Claim C4, amended: the per-page splitter sees the whole 1500
characters only when they arrive on one page.  A 2-page PDF whose
first page carries the full 1500-character text (newline-free) and
whose second page is blank yields exactly the two chunks the scenario
names — the first 1000 characters and characters 900-1500 — and the
embedding stage then yields exactly 2 records. -/
theorem scenario_a_single_page_amended (s : List Char) (h1 : s.length = 1500)
    (h2 : '\n' ∉ s) :
    pipelineChunks [ReadResult.pages [PageResult.text s, PageResult.text []]] =
      [s.take 1000, s.drop 900] ∧
    ∀ (V : Type) (enc : List Char → V),
      (map_batches (EmbedCall enc) 100
        (pipelineChunks [ReadResult.pages [PageResult.text s, PageResult.text []]])).length = 2 := by
  have hs_ne : s ≠ [] := by
    intro h
    rw [h] at h1
    simp at h1
  have hsplit : split_text s = [s.take 1000, s.drop 900] := by
    rw [split_text, recursiveSplit_of_ne_nil hs_ne,
      splitRec_of_gt (by rw [h1]; norm_num),
      splitRec_of_le (by rw [List.length_drop, h1]; norm_num)]
    rw [List.map_cons, List.map_cons, List.map_nil,
      map_replaceNewline_id (fun x hx he => h2 (he ▸ List.take_subset 1000 s hx)),
      map_replaceNewline_id (fun x hx he => h2 (he ▸ List.drop_subset 900 s hx))]
  have hchunks : pipelineChunks [ReadResult.pages [PageResult.text s, PageResult.text []]] =
      [s.take 1000, s.drop 900] := by
    rw [pipelineChunks]
    rw [show flat_map convertPages [ReadResult.pages [PageResult.text s, PageResult.text []]] =
        [s, []] from by simp [flat_map, convertPages, pageText]]
    rw [show flat_map split_text [s, ([] : List Char)] = split_text s from by
      simp [flat_map, split_text_nil]]
    exact hsplit
  refine ⟨hchunks, fun V enc => ?_⟩
  rw [hchunks]
  have hlen2 : ((map_batches (EmbedCall enc) 100 [s.take 1000, s.drop 900]).map Prod.fst).length = 2 := by
    rw [map_batches_fst enc [s.take 1000, s.drop 900]]
    rfl
  rw [List.length_map] at hlen2
  exact hlen2

/-- Witness for the amended C4 at a concrete 1500-character page. -/
theorem scenario_a_single_page_amended_witness :
    pipelineChunks [ReadResult.pages [PageResult.text (List.replicate 1500 'a'),
        PageResult.text []]] =
      [(List.replicate 1500 'a').take 1000, (List.replicate 1500 'a').drop 900] :=
  (scenario_a_single_page_amended (List.replicate 1500 'a')
    (by simp only [List.length_replicate])
    (by intro hmem; rw [List.mem_replicate] at hmem; exact absurd hmem.2 (by decide))).1
